import Mathlib

/-!
Verification of the managed-block hosts-file patcher in
`scripts/safe_browsing_guard/safe_browsing_guard.py`.

The file content is modelled as a `String`; a file is read as a list of
lines via `readlines` (each line keeps its trailing newline, as Python's
`readlines` does).  `pyStrip` models Python's `str.strip()`,
`strip_managed_block` / `render_block` / `apply_changes` /
`ensure_backup` / `restore_backup` are translated from the source.
-/

def BEGIN_MARKER : String := "# >>> SafeBrowsingGuard begin"

def END_MARKER : String := "# <<< SafeBrowsingGuard end"

def SAFESEARCH_IP : String := "216.239.38.120"

def SAFESEARCH_DOMAINS : List String :=
  ["google.com", "www.google.com", "www.google.co.uk", "www.google.ca",
   "youtube.com", "www.youtube.com"]

/-- ASCII whitespace recognised by Python's `str.strip()`. -/
def isPySpace (c : Char) : Bool :=
  c = ' ' || c = '\t' || c = '\n' || c = '\r' || c = '\x0b' || c = '\x0c'

/-- Python `str.strip()`: remove trailing, then leading, whitespace. -/
def pyStrip (s : String) : String :=
  ⟨((s.data.reverse.dropWhile isPySpace).reverse).dropWhile isPySpace⟩

/-- Helper for `readlines`: `acc` holds the chars of the current
(unfinished) line in reverse. -/
def readlinesAux : List Char → List Char → List String
  | acc, [] => if acc = [] then [] else [⟨acc.reverse⟩]
  | acc, c :: cs =>
    if c = '\n' then ⟨acc.reverse ++ ['\n']⟩ :: readlinesAux [] cs
    else readlinesAux (c :: acc) cs

/-- Python `f.readlines()`: split into lines, each keeping its `'\n'`;
the final line may lack one. -/
def readlines (s : String) : List String := readlinesAux [] s.data

/-- Python `line.endswith "\n"` on a line. -/
def endsNL (s : String) : Bool := s.data.getLast? == some '\n'

/-- The loop body of `strip_managed_block`, with the `skipping` flag. -/
def stripAux : Bool → List String → List String
  | _, [] => []
  | skipping, line :: rest =>
    if pyStrip line = BEGIN_MARKER then stripAux true rest
    else if pyStrip line = END_MARKER then stripAux false rest
    else if skipping then stripAux skipping rest
    else line :: stripAux skipping rest

/-- `strip_managed_block(lines)` from the source: drop every previously
managed region, keeping all other lines in order. -/
def strip_managed_block (lines : List String) : List String :=
  stripAux false lines

/-- Code-point lexicographic `≤` on char lists, as Python compares
strings. -/
def lexLe : List Char → List Char → Bool
  | [], _ => true
  | _ :: _, [] => false
  | a :: as, b :: bs =>
    if a.toNat < b.toNat then true
    else if b.toNat < a.toNat then false
    else lexLe as bs

/-- Python `a <= b` on strings. -/
def strLe (a b : String) : Bool := lexLe a.data b.data

/-- Python `sorted(set(domains))`. -/
def sorted_set (domains : List String) : List String :=
  List.insertionSort (fun a b => strLe a b = true) domains.dedup

/-- `render_block(domains)` from the source. -/
def render_block (domains : List String) : List String :=
  let block :=
    [BEGIN_MARKER, "# SafeSearch mappings -> " ++ SAFESEARCH_IP]
      ++ SAFESEARCH_DOMAINS.map (fun d => SAFESEARCH_IP ++ "\t" ++ d)
      ++ (if domains.isEmpty then []
          else "# Custom blocked domains -> 127.0.0.1"
            :: (sorted_set domains).map (fun d => "127.0.0.1\t" ++ d))
      ++ [END_MARKER]
  block.map (fun line => line ++ "\n")

/-- The content transformation performed by `apply_changes`: strip the
old managed block, then write the unmanaged lines, a pad newline when the
last unmanaged line lacks one, and the freshly rendered block. -/
def apply_changes (domains : List String) (hostsContent : String) : String :=
  let unmanaged := strip_managed_block (readlines hostsContent)
  let managed := render_block domains
  String.join unmanaged
    ++ (match unmanaged.getLast? with
        | none => ""
        | some last => if endsNL last then "" else "\n")
    ++ String.join managed

/-- `ensure_backup`: the backup file's content (`none` when absent) after
the call; it is created from the hosts content only when absent. -/
def ensure_backup (hostsContent : String) (backup : Option String) :
    Option String :=
  match backup with
  | none => some hostsContent
  | some existing => some existing

/-- `restore_backup`: resulting hosts content and the message printed. -/
def restore_backup (hostsContent : String) (backup : Option String) :
    String × String :=
  match backup with
  | none => (hostsContent, "No backup found.")
  | some saved => (saved, "Backup restored. DNS cache refreshed where supported.")

/-- The successive on-disk contents of the hosts file during the write
phase of `apply_changes`: `open("w")` truncates in place, then the
unmanaged lines, the pad newline and the managed block are written. -/
def write_phase_states (domains : List String) (hostsContent : String) :
    List String :=
  let unmanaged := strip_managed_block (readlines hostsContent)
  let managed := render_block domains
  let pad : String :=
    match unmanaged.getLast? with
    | none => ""
    | some last => if endsNL last then "" else "\n"
  ["", String.join unmanaged, String.join unmanaged ++ pad,
   String.join unmanaged ++ pad ++ String.join managed]

/-- Effect of apply's pad on the line list: append a newline to the last
line when it lacks one. -/
def fixLast : List String → List String
  | [] => []
  | [l] => if endsNL l then [l] else [l ++ "\n"]
  | l :: l2 :: ls => l :: fixLast (l2 :: ls)

/-- A line that is neither sentinel after stripping. -/
def markerFreeB (l : String) : Bool :=
  pyStrip l != BEGIN_MARKER && pyStrip l != END_MARKER

/-- The line list splits as marker-free lines followed by exactly the
rendered block for `domains`: exactly one well-formed managed block. -/
def hasOneBlockB (domains : List String) (lines : List String) : Bool :=
  (List.range (lines.length + 1)).any fun k =>
    (lines.take k).all markerFreeB && lines.drop k == render_block domains

/-- The lines of `render_block` strictly between the two sentinels,
before the trailing newline is attached. -/
def inner_block (domains : List String) : List String :=
  ("# SafeSearch mappings -> " ++ SAFESEARCH_IP)
    :: SAFESEARCH_DOMAINS.map (fun d => SAFESEARCH_IP ++ "\t" ++ d)
    ++ (if domains.isEmpty then []
        else "# Custom blocked domains -> 127.0.0.1"
          :: (sorted_set domains).map (fun d => "127.0.0.1\t" ++ d))

/-- A line as produced by `readlines`: nonempty, and any `'\n'` occurs
only as the final character. -/
def NearLine (l : String) : Prop :=
  l.data ≠ [] ∧ ((∃ t, '\n' ∉ t ∧ l.data = t ++ ['\n']) ∨ '\n' ∉ l.data)

/-- A complete line: ends with `'\n'` and has no interior `'\n'`. -/
def ProperLine (l : String) : Prop :=
  ∃ t, '\n' ∉ t ∧ l.data = t ++ ['\n']

set_option maxRecDepth 100000

/-! ### Basic facts about `String.join` -/

theorem foldl_append_data (ls : List String) (a : String) :
    (List.foldl (fun r s => r ++ s) a ls).data =
      a.data ++ (ls.map String.data).flatten := by
  induction ls generalizing a with
  | nil => simp
  | cons l ls ih =>
    simp only [List.foldl_cons, ih, List.map_cons, List.flatten_cons,
      String.data_append, List.append_assoc]

theorem join_data (ls : List String) :
    (String.join ls).data = (ls.map String.data).flatten := by
  simp [String.join, foldl_append_data ls ""]

theorem join_cons (l : String) (ls : List String) :
    String.join (l :: ls) = l ++ String.join ls := by
  apply String.ext
  simp [join_data, String.data_append]

theorem join_append (as bs : List String) :
    String.join (as ++ bs) = String.join as ++ String.join bs := by
  apply String.ext
  simp [join_data, String.data_append]

/-! ### Facts about `readlines` -/

theorem readlinesAux_break (t : List Char) :
    ∀ (acc cs : List Char), '\n' ∉ t →
      readlinesAux acc (t ++ '\n' :: cs) =
        ⟨acc.reverse ++ t ++ ['\n']⟩ :: readlinesAux [] cs := by
  induction t with
  | nil => intro acc cs _; simp [readlinesAux]
  | cons c t ih =>
    intro acc cs ht
    have hc : c ≠ '\n' := fun h => ht (h ▸ List.mem_cons_self c t)
    have ht2 : '\n' ∉ t := fun h => ht (List.mem_cons_of_mem c h)
    have h1 : readlinesAux acc ((c :: t) ++ '\n' :: cs) =
        readlinesAux (c :: acc) (t ++ '\n' :: cs) := by
      simp [readlinesAux, hc]
    rw [h1, ih (c :: acc) cs ht2]
    exact congrArg (fun d => (⟨d⟩ : String) :: readlinesAux [] cs) (by simp)

theorem readlinesAux_noNL (t : List Char) :
    ∀ acc : List Char, '\n' ∉ t →
      readlinesAux acc t =
        if acc.reverse ++ t = [] then [] else [⟨acc.reverse ++ t⟩] := by
  induction t with
  | nil =>
    intro acc _
    simp only [readlinesAux, List.append_nil]
    by_cases h : acc = [] <;> simp [h]
  | cons c t ih =>
    intro acc ht
    have hc : c ≠ '\n' := fun h => ht (h ▸ List.mem_cons_self c t)
    have ht2 : '\n' ∉ t := fun h => ht (List.mem_cons_of_mem c h)
    have h1 : readlinesAux acc (c :: t) = readlinesAux (c :: acc) t := by
      simp [readlinesAux, hc]
    have h2 : (c :: acc).reverse ++ t ≠ [] := by simp
    have h3 : acc.reverse ++ c :: t ≠ [] := by simp
    rw [h1, ih (c :: acc) ht2, if_neg h2, if_neg h3]
    exact congrArg (fun d => [(⟨d⟩ : String)]) (by simp)

theorem proper_endsNL {l : String} (h : ProperLine l) : endsNL l = true := by
  obtain ⟨t, _, ht⟩ := h
  simp [endsNL, ht, List.getLast?_concat]

theorem proper_nearLine {l : String} (h : ProperLine l) : NearLine l := by
  obtain ⟨t, hnt, ht⟩ := h
  exact ⟨by simp [ht], Or.inl ⟨t, hnt, ht⟩⟩

theorem nearLine_endsNL_proper {l : String} (h : NearLine l)
    (he : endsNL l = true) : ProperLine l := by
  obtain ⟨hne, hcase | hfree⟩ := h
  · exact hcase
  · exfalso
    have h2 : l.data.getLast? = some '\n' := by simpa [endsNL] using he
    exact hfree (List.mem_of_mem_getLast? (by simp [h2, Option.mem_def]))

theorem readlines_join (ls : List String) (hN : ∀ l ∈ ls, NearLine l)
    (hD : ∀ l ∈ ls.dropLast, endsNL l = true) :
    readlines (String.join ls) = ls := by
  induction ls with
  | nil => rfl
  | cons l ls ih =>
    match ls with
    | [] =>
      obtain ⟨hne, hcase | hfree⟩ := hN l (List.mem_cons_self l [])
      · obtain ⟨t, hnt, ht⟩ := hcase
        have hdata : (String.join [l]).data = t ++ '\n' :: [] := by
          simp [join_data, ht]
        show readlinesAux [] (String.join [l]).data = [l]
        rw [hdata, readlinesAux_break t [] [] hnt]
        simp [readlinesAux, ← ht]
      · have hdata : (String.join [l]).data = l.data := by simp [join_data]
        show readlinesAux [] (String.join [l]).data = [l]
        rw [hdata, readlinesAux_noNL l.data [] hfree]
        simp [hne]
    | l2 :: ls2 =>
      have hp : ProperLine l := by
        refine nearLine_endsNL_proper (hN l (List.mem_cons_self l _)) ?_
        exact hD l (by simp [List.dropLast_cons₂])
      obtain ⟨t, hnt, ht⟩ := hp
      have hdata : (String.join (l :: l2 :: ls2)).data =
          t ++ '\n' :: (String.join (l2 :: ls2)).data := by
        rw [join_cons, String.data_append, ht]
        simp
      have ihh : readlines (String.join (l2 :: ls2)) = l2 :: ls2 := by
        refine ih (fun x hx => hN x (List.mem_cons_of_mem l hx)) ?_
        intro x hx
        exact hD x (by simp [List.dropLast_cons₂, hx])
      show readlinesAux [] (String.join (l :: l2 :: ls2)).data = _
      rw [hdata, readlinesAux_break t _ _ hnt]
      refine congrArg₂ (fun a b => a :: b) ?_ ihh
      apply String.ext
      simp [← ht]

theorem readlinesAux_wf (cs : List Char) :
    ∀ acc : List Char, '\n' ∉ acc →
      (∀ l ∈ readlinesAux acc cs, NearLine l) ∧
      (∀ l ∈ (readlinesAux acc cs).dropLast, endsNL l = true) := by
  induction cs with
  | nil =>
    intro acc hacc
    by_cases h : acc = []
    · simp [readlinesAux, h]
    · constructor
      · intro l hl
        have : l = ⟨acc.reverse⟩ := by simpa [readlinesAux, h] using hl
        subst this
        refine ⟨by simpa using h, Or.inr ?_⟩
        simpa using hacc
      · intro l hl
        simp [readlinesAux, h] at hl
  | cons c cs ih =>
    intro acc hacc
    by_cases hc : c = '\n'
    · subst hc
      have hrw : readlinesAux acc ('\n' :: cs) =
          ⟨acc.reverse ++ ['\n']⟩ :: readlinesAux [] cs := by
        simp [readlinesAux]
      obtain ⟨ihN, ihD⟩ := ih [] (by simp)
      have hx : ProperLine ⟨acc.reverse ++ ['\n']⟩ :=
        ⟨acc.reverse, by simpa using hacc, rfl⟩
      rw [hrw]
      constructor
      · intro l hl
        rcases List.mem_cons.mp hl with rfl | hl2
        · exact proper_nearLine hx
        · exact ihN l hl2
      · match hR : readlinesAux [] cs with
        | [] => simp
        | r :: rs =>
          rw [List.dropLast_cons₂]
          intro l hl
          rcases List.mem_cons.mp hl with rfl | hl2
          · exact proper_endsNL hx
          · exact ihD l (hR ▸ hl2)
    · have hrw : readlinesAux acc (c :: cs) = readlinesAux (c :: acc) cs := by
        simp [readlinesAux, hc]
      rw [hrw]
      exact ih (c :: acc) (by simp [hacc, Ne.symm hc])

theorem readlines_wf (s : String) :
    (∀ l ∈ readlines s, NearLine l) ∧
    (∀ l ∈ (readlines s).dropLast, endsNL l = true) :=
  readlinesAux_wf s.data [] (by simp)

/-! ### Facts about `strip_managed_block` -/

theorem stripAux_subset (ls : List String) :
    ∀ (b : Bool) (l : String), l ∈ stripAux b ls → l ∈ ls := by
  induction ls with
  | nil => intro b l hl; simp [stripAux] at hl
  | cons x rest ih =>
    intro b l hl
    simp only [stripAux] at hl
    split_ifs at hl with h1 h2 h3
    · exact List.mem_cons_of_mem x (ih true l hl)
    · exact List.mem_cons_of_mem x (ih false l hl)
    · exact List.mem_cons_of_mem x (ih b l hl)
    · rcases List.mem_cons.mp hl with rfl | hl2
      · exact List.mem_cons_self l rest
      · exact List.mem_cons_of_mem x (ih b l hl2)

theorem stripAux_markerFree (ls : List String) :
    ∀ (b : Bool) (l : String), l ∈ stripAux b ls →
      pyStrip l ≠ BEGIN_MARKER ∧ pyStrip l ≠ END_MARKER := by
  induction ls with
  | nil => intro b l hl; simp [stripAux] at hl
  | cons x rest ih =>
    intro b l hl
    simp only [stripAux] at hl
    split_ifs at hl with h1 h2 h3
    · exact ih true l hl
    · exact ih false l hl
    · exact ih b l hl
    · rcases List.mem_cons.mp hl with rfl | hl2
      · exact ⟨h1, h2⟩
      · exact ih b l hl2

theorem stripAux_dropLast_endsNL (ls : List String) :
    ∀ b : Bool, (∀ l ∈ ls.dropLast, endsNL l = true) →
      ∀ l ∈ (stripAux b ls).dropLast, endsNL l = true := by
  induction ls with
  | nil => intro b _ l hl; simp [stripAux] at hl
  | cons x rest ih =>
    intro b hQ l hl
    have hQ2 : ∀ l ∈ rest.dropLast, endsNL l = true := by
      match rest with
      | [] => simp
      | r :: rs =>
        intro y hy
        exact hQ y (by rw [List.dropLast_cons₂]; exact List.mem_cons_of_mem x hy)
    simp only [stripAux] at hl
    split_ifs at hl with h1 h2 h3
    · exact ih true hQ2 l hl
    · exact ih false hQ2 l hl
    · exact ih b hQ2 l hl
    · match hR : stripAux b rest with
      | [] => rw [hR] at hl; simp at hl
      | r :: rs =>
        rw [hR, List.dropLast_cons₂] at hl
        rcases List.mem_cons.mp hl with rfl | hl2
        · have hrest : rest ≠ [] := by
            intro h
            rw [h] at hR
            simp [stripAux] at hR
          match rest, hrest with
          | y :: ys, _ =>
            exact hQ l (by rw [List.dropLast_cons₂]; exact List.mem_cons_self l _)
        · exact ih b hQ2 l (by rw [hR]; exact hl2)

theorem stripAux_cons_begin (b : Bool) (l : String) (ls : List String)
    (h : pyStrip l = BEGIN_MARKER) : stripAux b (l :: ls) = stripAux true ls := by
  simp only [stripAux]
  rw [if_pos h]

theorem stripAux_cons_end (b : Bool) (l : String) (ls : List String)
    (h1 : pyStrip l ≠ BEGIN_MARKER) (h2 : pyStrip l = END_MARKER) :
    stripAux b (l :: ls) = stripAux false ls := by
  simp only [stripAux]
  rw [if_neg h1, if_pos h2]

theorem stripAux_cons_keep (l : String) (ls : List String)
    (h1 : pyStrip l ≠ BEGIN_MARKER) (h2 : pyStrip l ≠ END_MARKER) :
    stripAux false (l :: ls) = l :: stripAux false ls := by
  simp only [stripAux]
  rw [if_neg h1, if_neg h2, if_neg (by simp : ¬ (false = true))]

theorem stripAux_markerFree_append (ls : List String) :
    ∀ ys : List String,
      (∀ l ∈ ls, pyStrip l ≠ BEGIN_MARKER ∧ pyStrip l ≠ END_MARKER) →
      stripAux false (ls ++ ys) = ls ++ stripAux false ys := by
  induction ls with
  | nil => intro ys _; rfl
  | cons x rest ih =>
    intro ys h
    obtain ⟨hb, he⟩ := h x (List.mem_cons_self x rest)
    have hrest := fun l hl => h l (List.mem_cons_of_mem x hl)
    simp only [List.cons_append, stripAux, if_neg hb, if_neg he, if_neg
      (by simp : ¬ (false = true))]
    exact congrArg (List.cons x) (ih ys hrest)

theorem stripAux_skip_drop (zs : List String) :
    ∀ ys : List String, (∀ z ∈ zs, pyStrip z ≠ END_MARKER) →
      stripAux true (zs ++ ys) = stripAux true ys := by
  induction zs with
  | nil => intro ys _; rfl
  | cons z rest ih =>
    intro ys h
    have he := (h z (List.mem_cons_self z rest))
    have hrest := fun l hl => h l (List.mem_cons_of_mem z hl)
    by_cases hb : pyStrip z = BEGIN_MARKER
    · simp only [List.cons_append, stripAux, if_pos hb]
      exact ih ys hrest
    · simp only [List.cons_append, stripAux, if_neg hb, if_neg he,
        if_pos rfl]
      exact ih ys hrest

/-! ### Facts about `pyStrip` -/

theorem pyStrip_append_nl (s : String) : pyStrip (s ++ "\n") = pyStrip s := by
  apply String.ext
  show (((s ++ "\n").data.reverse.dropWhile isPySpace).reverse).dropWhile
      isPySpace = _
  have h1 : (s ++ "\n").data = s.data ++ ['\n'] := by
    simp [String.data_append]
  rw [h1, List.reverse_concat, List.dropWhile_cons_of_pos (by decide)]
  rfl

theorem dropWhile_append_keep (l : List Char) (c : Char)
    (hc : isPySpace c = false) :
    ∃ l2, (l ++ [c]).dropWhile isPySpace = l2 ++ [c] := by
  induction l with
  | nil => exact ⟨[], by simp [List.dropWhile_cons, hc]⟩
  | cons a l ih =>
    by_cases ha : isPySpace a
    · obtain ⟨l2, hl2⟩ := ih
      exact ⟨l2, by simp [List.dropWhile_cons, ha, hl2]⟩
    · exact ⟨a :: l, by simp [List.dropWhile_cons, ha]⟩

theorem pyStrip_headChar (s : String) (c : Char) (xs : List Char)
    (hdata : s.data = c :: xs) (hc : isPySpace c = false) :
    (pyStrip s).data.head? = some c := by
  show ((((s.data).reverse.dropWhile isPySpace).reverse).dropWhile
      isPySpace).head? = some c
  rw [hdata, List.reverse_cons]
  obtain ⟨l2, hl2⟩ := dropWhile_append_keep xs.reverse c hc
  rw [hl2, List.reverse_concat, List.dropWhile_cons_of_neg (by simp [hc])]
  rfl

theorem custom_line_markerFree (d : String) :
    pyStrip ("127.0.0.1\t" ++ d) ≠ BEGIN_MARKER ∧
    pyStrip ("127.0.0.1\t" ++ d) ≠ END_MARKER := by
  have hdata : ("127.0.0.1\t" ++ d).data =
      '1' :: (['2', '7', '.', '0', '.', '0', '.', '1', '\t'] ++ d.data) := by
    rw [String.data_append]
    rfl
  have hh := pyStrip_headChar _ '1' _ hdata (by decide)
  constructor
  · intro h
    rw [h] at hh
    simp [BEGIN_MARKER] at hh
  · intro h
    rw [h] at hh
    simp [END_MARKER] at hh

/-! ### Structure of the rendered block -/

theorem render_block_shape (domains : List String) :
    render_block domains =
      (BEGIN_MARKER ++ "\n")
        :: (inner_block domains).map (fun line => line ++ "\n")
        ++ [END_MARKER ++ "\n"] := by
  simp [render_block, inner_block, List.map_append]

theorem sorted_set_mem (domains : List String) (d : String) :
    d ∈ sorted_set domains ↔ d ∈ domains := by
  unfold sorted_set
  rw [(List.perm_insertionSort _ _).mem_iff, List.mem_dedup]

theorem inner_block_markerFree (domains : List String) :
    ∀ s ∈ inner_block domains,
      pyStrip (s ++ "\n") ≠ BEGIN_MARKER ∧ pyStrip (s ++ "\n") ≠ END_MARKER := by
  intro s hs
  rw [pyStrip_append_nl]
  unfold inner_block at hs
  rcases List.mem_cons.mp hs with rfl | hs2
  · constructor <;> decide
  · rcases List.mem_append.mp hs2 with hss | hcustom
    · have : ∀ s ∈ SAFESEARCH_DOMAINS.map (fun d => SAFESEARCH_IP ++ "\t" ++ d),
          pyStrip s ≠ BEGIN_MARKER ∧ pyStrip s ≠ END_MARKER := by decide
      exact this s hss
    · by_cases he : domains.isEmpty
      · simp [he] at hcustom
      · rw [if_neg he] at hcustom
        rcases List.mem_cons.mp hcustom with rfl | hs3
        · constructor <;> decide
        · obtain ⟨d, _, rfl⟩ := List.mem_map.mp hs3
          exact custom_line_markerFree d

theorem strip_render (domains : List String) :
    stripAux false (render_block domains) = [] := by
  rw [render_block_shape, List.cons_append,
    stripAux_cons_begin false (BEGIN_MARKER ++ "\n")
      ((inner_block domains).map (fun line => line ++ "\n")
        ++ [END_MARKER ++ "\n"]) (by decide),
    stripAux_skip_drop _ _ (fun z hz => by
      obtain ⟨s, hs, rfl⟩ := List.mem_map.mp hz
      exact (inner_block_markerFree domains s hs).2),
    stripAux_cons_end true (END_MARKER ++ "\n") [] (by decide) (by decide)]
  rfl

theorem render_block_proper (domains : List String)
    (hD : ∀ d ∈ domains, '\n' ∉ d.data) :
    ∀ l ∈ render_block domains, ProperLine l := by
  intro l hl
  have hcore : ∀ s ∈ (BEGIN_MARKER
      :: ("# SafeSearch mappings -> " ++ SAFESEARCH_IP)
      :: SAFESEARCH_DOMAINS.map (fun d => SAFESEARCH_IP ++ "\t" ++ d)
      ++ (if domains.isEmpty then []
          else "# Custom blocked domains -> 127.0.0.1"
            :: (sorted_set domains).map (fun d => "127.0.0.1\t" ++ d))
      ++ [END_MARKER]), '\n' ∉ s.data := by
    intro s hs
    rcases List.mem_cons.mp hs with rfl | hs2
    · decide
    rcases List.mem_cons.mp hs2 with rfl | hs3
    · decide
    rcases List.mem_append.mp hs3 with hs4 | hs5
    · rcases List.mem_append.mp hs4 with hss | hcustom
      · have hx : ∀ s ∈ SAFESEARCH_DOMAINS.map
            (fun d => SAFESEARCH_IP ++ "\t" ++ d), '\n' ∉ s.data := by decide
        exact hx s hss
      · by_cases he : domains.isEmpty
        · simp [he] at hcustom
        · rw [if_neg he] at hcustom
          rcases List.mem_cons.mp hcustom with rfl | hs6
          · decide
          · obtain ⟨d, hd, rfl⟩ := List.mem_map.mp hs6
            have hd2 : '\n' ∉ d.data :=
              hD d ((sorted_set_mem domains d).mp hd)
            rw [String.data_append]
            intro hmem
            rcases List.mem_append.mp hmem with h | h
            · have hlit : '\n' ∉ ("127.0.0.1\t" : String).data := by decide
              exact hlit h
            · exact hd2 h
    · have : s = END_MARKER := by simpa using hs5
      subst this
      decide
  have hl2 : ∃ s, ('\n' ∉ s.data) ∧ l = s ++ "\n" := by
    unfold render_block at hl
    simp only [List.mem_map] at hl
    obtain ⟨s, hs, rfl⟩ := hl
    refine ⟨s, hcore s ?_, rfl⟩
    simpa using hs
  obtain ⟨s, hsn, rfl⟩ := hl2
  exact ⟨s.data, hsn, by simp [String.data_append]⟩

/-! ### Facts about `fixLast` -/

theorem fixLast_proper : ∀ ls : List String, (∀ l ∈ ls, NearLine l) →
    (∀ l ∈ ls.dropLast, endsNL l = true) →
    ∀ l ∈ fixLast ls, ProperLine l := by
  intro ls
  induction ls with
  | nil => intro _ _ l hl; simp [fixLast] at hl
  | cons x rest ih =>
    cases rest with
    | nil =>
      intro hN _ l hl
      by_cases he : endsNL x = true
      · rw [show fixLast [x] = [x] by simp [fixLast, he]] at hl
        rcases List.mem_singleton.mp hl with rfl
        exact nearLine_endsNL_proper (hN l (List.mem_cons_self l [])) he
      · rw [show fixLast [x] = [x ++ "\n"] by simp [fixLast, he]] at hl
        rcases List.mem_singleton.mp hl with rfl
        obtain ⟨hne, hcase | hfree⟩ := hN x (List.mem_cons_self x [])
        · exact absurd (proper_endsNL hcase) he
        · exact ⟨x.data, hfree, by simp [String.data_append]⟩
    | cons y ys =>
      intro hN hQ l hl
      rw [show fixLast (x :: y :: ys) = x :: fixLast (y :: ys) by
        simp [fixLast]] at hl
      rcases List.mem_cons.mp hl with rfl | hl2
      · refine nearLine_endsNL_proper (hN l (List.mem_cons_self l _)) ?_
        exact hQ l (by rw [List.dropLast_cons₂]; exact List.mem_cons_self l _)
      · refine ih (fun z hz => hN z (List.mem_cons_of_mem x hz)) ?_ l hl2
        intro z hz
        exact hQ z (by rw [List.dropLast_cons₂]; exact List.mem_cons_of_mem x hz)

theorem fixLast_endsNL_id : ∀ ls : List String,
    (∀ l ∈ ls, endsNL l = true) → fixLast ls = ls := by
  intro ls
  induction ls with
  | nil => intro _; rfl
  | cons x rest ih =>
    cases rest with
    | nil =>
      intro h
      simp [fixLast, h x (List.mem_cons_self x [])]
    | cons y ys =>
      intro h
      rw [show fixLast (x :: y :: ys) = x :: fixLast (y :: ys) by
        simp [fixLast]]
      rw [ih (fun z hz => h z (List.mem_cons_of_mem x hz))]

theorem fixLast_markerFree : ∀ ls : List String,
    (∀ l ∈ ls, pyStrip l ≠ BEGIN_MARKER ∧ pyStrip l ≠ END_MARKER) →
    ∀ l ∈ fixLast ls, pyStrip l ≠ BEGIN_MARKER ∧ pyStrip l ≠ END_MARKER := by
  intro ls
  induction ls with
  | nil => intro _ l hl; simp [fixLast] at hl
  | cons x rest ih =>
    cases rest with
    | nil =>
      intro h l hl
      by_cases he : endsNL x = true
      · rw [show fixLast [x] = [x] by simp [fixLast, he]] at hl
        rcases List.mem_singleton.mp hl with rfl
        exact h l (List.mem_cons_self l [])
      · rw [show fixLast [x] = [x ++ "\n"] by simp [fixLast, he]] at hl
        rcases List.mem_singleton.mp hl with rfl
        rw [pyStrip_append_nl]
        exact h x (List.mem_cons_self x [])
    | cons y ys =>
      intro h l hl
      rw [show fixLast (x :: y :: ys) = x :: fixLast (y :: ys) by
        simp [fixLast]] at hl
      rcases List.mem_cons.mp hl with rfl | hl2
      · exact h l (List.mem_cons_self l _)
      · exact ih (fun z hz => h z (List.mem_cons_of_mem x hz)) l hl2

theorem join_fixLast : ∀ ls : List String,
    String.join ls
      ++ (match ls.getLast? with
          | none => ""
          | some last => if endsNL last then "" else "\n") =
    String.join (fixLast ls) := by
  intro ls
  induction ls with
  | nil => apply String.ext; simp [join_data, fixLast]
  | cons x rest ih =>
    cases rest with
    | nil =>
      by_cases he : endsNL x = true
      · rw [show fixLast [x] = [x] by simp [fixLast, he]]
        apply String.ext
        simp [join_data, String.data_append, List.getLast?_singleton, he]
      · rw [show fixLast [x] = [x ++ "\n"] by simp [fixLast, he]]
        apply String.ext
        simp [join_data, String.data_append, List.getLast?_singleton, he]
    | cons y ys =>
      rw [show fixLast (x :: y :: ys) = x :: fixLast (y :: ys) by
        simp [fixLast]]
      rw [List.getLast?_cons_cons, join_cons x (y :: ys),
        join_cons x (fixLast (y :: ys)), String.append_assoc, ih]

theorem apply_eq (domains : List String) (c : String) :
    apply_changes domains c =
      String.join (fixLast (strip_managed_block (readlines c))
        ++ render_block domains) := by
  rw [join_append, ← join_fixLast]
  rfl

/-! ### Assembly lemmas -/

theorem unmanaged_fix_wf (c : String) :
    (∀ l ∈ fixLast (strip_managed_block (readlines c)), ProperLine l) ∧
    (∀ l ∈ fixLast (strip_managed_block (readlines c)),
      pyStrip l ≠ BEGIN_MARKER ∧ pyStrip l ≠ END_MARKER) := by
  obtain ⟨hN, hD⟩ := readlines_wf c
  have hNU : ∀ l ∈ strip_managed_block (readlines c), NearLine l :=
    fun l hl => hN l (stripAux_subset _ false l hl)
  have hDU : ∀ l ∈ (strip_managed_block (readlines c)).dropLast,
      endsNL l = true :=
    stripAux_dropLast_endsNL _ false hD
  have hMU : ∀ l ∈ strip_managed_block (readlines c),
      pyStrip l ≠ BEGIN_MARKER ∧ pyStrip l ≠ END_MARKER :=
    fun l hl => stripAux_markerFree _ false l hl
  exact ⟨fixLast_proper _ hNU hDU, fixLast_markerFree _ hMU⟩

theorem patched_fixpoint (domains : List String)
    (hD : ∀ d ∈ domains, '\n' ∉ d.data) (F : List String)
    (hFp : ∀ l ∈ F, ProperLine l)
    (hFm : ∀ l ∈ F, pyStrip l ≠ BEGIN_MARKER ∧ pyStrip l ≠ END_MARKER) :
    readlines (String.join (F ++ render_block domains)) =
      F ++ render_block domains ∧
    strip_managed_block (F ++ render_block domains) = F ∧
    apply_changes domains (String.join (F ++ render_block domains)) =
      String.join (F ++ render_block domains) := by
  have hall : ∀ l ∈ F ++ render_block domains, ProperLine l := by
    intro l hl
    rcases List.mem_append.mp hl with h | h
    · exact hFp l h
    · exact render_block_proper domains hD l h
  have ha : readlines (String.join (F ++ render_block domains)) =
      F ++ render_block domains := by
    refine readlines_join _ (fun l hl => proper_nearLine (hall l hl)) ?_
    intro l hl
    exact proper_endsNL (hall l ((List.dropLast_sublist _).subset hl))
  have hb : strip_managed_block (F ++ render_block domains) = F := by
    unfold strip_managed_block
    rw [stripAux_markerFree_append F _ hFm]
    rw [show stripAux false (render_block domains) = [] from
      strip_render domains]
    simp
  have hfix : fixLast F = F :=
    fixLast_endsNL_id F (fun l hl => proper_endsNL (hFp l hl))
  refine ⟨ha, hb, ?_⟩
  rw [apply_eq, ha]
  rw [show strip_managed_block (F ++ render_block domains) = F from hb, hfix]

theorem lexLe_total : ∀ as bs : List Char,
    lexLe as bs = true ∨ lexLe bs as = true := by
  intro as
  induction as with
  | nil => intro bs; left; rfl
  | cons a as ih =>
    intro bs
    cases bs with
    | nil => right; rfl
    | cons b bs =>
      rcases Nat.lt_trichotomy a.toNat b.toNat with h | h | h
      · left; simp [lexLe, h]
      · rcases ih bs with h2 | h2
        · left; simp [lexLe, h, Nat.lt_irrefl, h2]
        · right; simp [lexLe, h, Nat.lt_irrefl, h2]
      · right; simp [lexLe, h]

theorem lexLe_trans : ∀ as bs cs : List Char,
    lexLe as bs = true → lexLe bs cs = true → lexLe as cs = true := by
  intro as
  induction as with
  | nil => intro bs cs _ _; rfl
  | cons a as ih =>
    intro bs cs h1 h2
    cases bs with
    | nil => simp [lexLe] at h1
    | cons b bs =>
      cases cs with
      | nil => simp [lexLe] at h2
      | cons c cs =>
        simp only [lexLe] at h1 h2 ⊢
        by_cases hab : a.toNat < b.toNat
        · by_cases hbc : b.toNat < c.toNat
          · have hac : a.toNat < c.toNat := Nat.lt_trans hab hbc
            simp [hac]
          · by_cases hcb : c.toNat < b.toNat
            · rw [if_neg hbc, if_pos hcb] at h2
              exact absurd h2 (by simp)
            · have hac : a.toNat < c.toNat := by omega
              simp [hac]
        · by_cases hba : b.toNat < a.toNat
          · rw [if_neg hab, if_pos hba] at h1
            exact absurd h1 (by simp)
          · rw [if_neg hab, if_neg hba] at h1
            by_cases hbc : b.toNat < c.toNat
            · have hac : a.toNat < c.toNat := by omega
              simp [hac]
            · by_cases hcb : c.toNat < b.toNat
              · rw [if_neg hbc, if_pos hcb] at h2
                exact absurd h2 (by simp)
              · rw [if_neg hbc, if_neg hcb] at h2
                have hac : ¬ a.toNat < c.toNat := by omega
                have hca : ¬ c.toNat < a.toNat := by omega
                rw [if_neg hac, if_neg hca]
                exact ih bs cs h1 h2

example : readlines "a\nbc" = ["a\n", "bc"] := by decide

example : strip_managed_block ["x\n", "# >>> SafeBrowsingGuard begin\n",
    "junk\n", "# <<< SafeBrowsingGuard end\n", "y\n"] = ["x\n", "y\n"] := by
  decide

example : sorted_set ["b.com", "a.com", "a.com"] = ["a.com", "b.com"] := by
  decide

/-! ### Claim theorems -/

/-- Claim C1 (amended): for every domain list whose domains contain no
newline character and every initial hosts content, applying twice with the
same domains yields the same content as applying once. -/
theorem apply_idempotent_newline_free (domains : List String)
    (hD : ∀ d ∈ domains, '\n' ∉ d.data) (c : String) :
    apply_changes domains (apply_changes domains c) =
      apply_changes domains c := by
  obtain ⟨hp, hm⟩ := unmanaged_fix_wf c
  obtain ⟨_, _, hfix⟩ := patched_fixpoint domains hD _ hp hm
  rw [apply_eq domains c]
  exact hfix

/-- Witness for C1: idempotence at a concrete domain list and content. -/
theorem apply_idempotent_newline_free_witness :
    apply_changes ["bad.com"] (apply_changes ["bad.com"] "x\n") =
      apply_changes ["bad.com"] "x\n" :=
  apply_idempotent_newline_free ["bad.com"] (by decide) "x\n"

/-- Counterexample to C1 as stated: a domain string containing a newline
and the end sentinel breaks idempotence, because the rendered block line
splits on re-read and the embedded sentinel ends the skip state early. -/
theorem apply_idempotent_cex :
    apply_changes ["\n# <<< SafeBrowsingGuard end\nfoo"]
        (apply_changes ["\n# <<< SafeBrowsingGuard end\nfoo"] "") ≠
      apply_changes ["\n# <<< SafeBrowsingGuard end\nfoo"] "" := by
  decide

/-- Claim C2 (amended): for newline-free domains and a marker-free,
well-formed unmanaged line sequence U, one apply (and every further
iterate) leaves exactly U (modulo the trailing-newline pad on the last
line) as the non-managed lines, in order. -/
theorem apply_preserves_foreign (domains : List String)
    (hD : ∀ d ∈ domains, '\n' ∉ d.data) (U : List String)
    (hU1 : ∀ l ∈ U, NearLine l)
    (hU2 : ∀ l ∈ U.dropLast, endsNL l = true)
    (hU3 : ∀ l ∈ U, pyStrip l ≠ BEGIN_MARKER ∧ pyStrip l ≠ END_MARKER) :
    strip_managed_block (readlines
      (apply_changes domains (String.join U))) = fixLast U ∧
    ∀ n : Nat, strip_managed_block (readlines
      ((apply_changes domains)^[n + 1] (String.join U))) = fixLast U := by
  have hrl : readlines (String.join U) = U := readlines_join U hU1 hU2
  have hstrip : strip_managed_block U = U := by
    unfold strip_managed_block
    have h1 := stripAux_markerFree_append U [] hU3
    rw [List.append_nil] at h1
    rw [h1, show stripAux false [] = [] from rfl, List.append_nil]
  have happ1 : apply_changes domains (String.join U) =
      String.join (fixLast U ++ render_block domains) := by
    rw [apply_eq, hrl, hstrip]
  have hFp : ∀ l ∈ fixLast U, ProperLine l := fixLast_proper U hU1 hU2
  have hFm : ∀ l ∈ fixLast U, pyStrip l ≠ BEGIN_MARKER ∧
      pyStrip l ≠ END_MARKER := fixLast_markerFree U hU3
  obtain ⟨ha, hb, hc⟩ := patched_fixpoint domains hD (fixLast U) hFp hFm
  have hiter : ∀ m : Nat, (apply_changes domains)^[m]
      (String.join (fixLast U ++ render_block domains)) =
      String.join (fixLast U ++ render_block domains) := by
    intro m
    induction m with
    | zero => rfl
    | succ k ihm => rw [Function.iterate_succ_apply, hc, ihm]
  constructor
  · rw [happ1, ha]
    exact hb
  · intro n
    rw [Function.iterate_succ_apply, happ1, hiter n, ha]
    exact hb

/-- Witness for C2 at a concrete unmanaged file and domain list. -/
theorem apply_preserves_foreign_witness :
    strip_managed_block (readlines
      (apply_changes ["x.com"] (String.join ["a\n"]))) = fixLast ["a\n"] :=
  (apply_preserves_foreign ["x.com"] (by decide) ["a\n"]
    (by
      intro l hl
      rcases List.mem_singleton.mp hl with rfl
      exact ⟨by decide, Or.inl ⟨['a'], by decide, by decide⟩⟩)
    (by decide) (by decide)).1

/-- Counterexample to C2 as stated: with a newline-containing domain, a
fragment of the rendered block leaks into the non-managed lines of the
output, so they no longer equal the original unmanaged sequence. -/
theorem apply_preserves_foreign_cex :
    strip_managed_block (readlines (apply_changes
        ["\n# <<< SafeBrowsingGuard end\nfoo"] (String.join []))) ≠
      fixLast [] := by
  decide

/-- Claim C3: the write phase is not atomic.  The code opens the hosts
file with mode "w", so the first on-disk state of the write phase is the
empty file even though the unmanaged content is nonempty; a failure at
that point has lost the unmanaged line, and no temp-file-and-rename step
exists. -/
theorem write_phase_truncates :
    (write_phase_states ["bad.com"] "1.2.3.4 other.example\n").head? =
      some "" ∧
    strip_managed_block (readlines "1.2.3.4 other.example\n") =
      ["1.2.3.4 other.example\n"] := by
  exact ⟨rfl, by decide⟩

/-- Claim C4 (amended): for newline-free domains, applying to any initial
content — including one with a begin sentinel and no matching end
sentinel — terminates and yields a file whose lines are marker-free lines
followed by exactly the rendered block: exactly one well-formed managed
block. -/
theorem apply_single_block (domains : List String)
    (hD : ∀ d ∈ domains, '\n' ∉ d.data) (c : String) :
    hasOneBlockB domains (readlines (apply_changes domains c)) = true := by
  obtain ⟨hp, hm⟩ := unmanaged_fix_wf c
  obtain ⟨ha, hb, _⟩ := patched_fixpoint domains hD _ hp hm
  rw [apply_eq, ha]
  unfold hasOneBlockB
  rw [List.any_eq_true]
  refine ⟨(fixLast (strip_managed_block (readlines c))).length,
    List.mem_range.mpr ?_, ?_⟩
  · rw [List.length_append]
    omega
  · rw [Bool.and_eq_true]
    constructor
    · rw [List.take_left, List.all_eq_true]
      intro l hl
      obtain ⟨h1, h2⟩ := hm l hl
      simp [markerFreeB, h1, h2]
    · rw [List.drop_left]
      exact beq_self_eq_true _

/-- Witness for C4 on a malformed input: a begin sentinel with no
matching end sentinel. -/
theorem apply_single_block_witness :
    hasOneBlockB ["bad.com"] (readlines (apply_changes ["bad.com"]
      "# >>> SafeBrowsingGuard begin\nfoo\n")) = true :=
  apply_single_block ["bad.com"] (by decide)
    "# >>> SafeBrowsingGuard begin\nfoo\n"

/-- Counterexample to C4 as stated: with a newline-containing domain the
output is not a marker-free prefix followed by the rendered block. -/
theorem apply_single_block_cex :
    hasOneBlockB ["\n# <<< SafeBrowsingGuard end\nfoo"]
      (readlines (apply_changes ["\n# <<< SafeBrowsingGuard end\nfoo"] ""))
      = false := by
  decide

/-- Claim C5: for a non-empty domain list the rendered block is the fixed
header plus the custom section whose lines are one per distinct domain in
code-point lexicographic order, formatted as the block address, a TAB and
the domain. -/
theorem render_sorted_dedup (domains : List String) (hne : domains ≠ []) :
    render_block domains =
      (BEGIN_MARKER :: ("# SafeSearch mappings -> " ++ SAFESEARCH_IP)
        :: (SAFESEARCH_DOMAINS.map (fun d => SAFESEARCH_IP ++ "\t" ++ d)
          ++ ("# Custom blocked domains -> 127.0.0.1"
              :: (sorted_set domains).map (fun d => "127.0.0.1\t" ++ d))
          ++ [END_MARKER])).map (fun line => line ++ "\n") ∧
    List.Sorted (fun a b => strLe a b = true) (sorted_set domains) ∧
    (sorted_set domains).Nodup ∧
    ∀ d, d ∈ sorted_set domains ↔ d ∈ domains := by
  have hie : domains.isEmpty = false := by
    rw [← Bool.not_eq_true]
    exact fun h => hne (List.isEmpty_iff.mp h)
  refine ⟨?_, ?_, ?_, fun d => sorted_set_mem domains d⟩
  · simp [render_block, hie]
  · exact @List.sorted_insertionSort String (fun a b => strLe a b = true)
      (fun a b => instDecidableEqBool _ _)
      ⟨fun a b => lexLe_total a.data b.data⟩
      ⟨fun a b c => lexLe_trans a.data b.data c.data⟩ domains.dedup
  · exact (List.perm_insertionSort _ _).nodup_iff.mpr
      (List.nodup_dedup domains)

/-- Witness for C5: the example from the spec, sorted and de-duplicated. -/
theorem render_sorted_dedup_witness :
    sorted_set ["b.com", "a.com", "a.com"] = ["a.com", "b.com"] ∧
    (sorted_set ["b.com", "a.com", "a.com"]).Nodup :=
  ⟨by decide,
   (render_sorted_dedup ["b.com", "a.com", "a.com"] (by decide)).2.2.1⟩

/-- Claim C6: the backup is created from the hosts content only when no
backup exists, an existing backup is never overwritten, and a second
invocation leaves the backup identical to its state after the first. -/
theorem ensure_backup_write_once :
    (∀ h : String, ensure_backup h none = some h) ∧
    (∀ h b : String, ensure_backup h (some b) = some b) ∧
    (∀ (h1 h2 : String) (b : Option String),
      ensure_backup h2 (ensure_backup h1 b) = ensure_backup h1 b) := by
  refine ⟨fun h => rfl, fun h b => rfl, fun h1 h2 b => ?_⟩
  cases b <;> rfl

/-- Claim C7: restore with no backup leaves the hosts content unchanged
and reports the informative "No backup found." outcome instead of
raising. -/
theorem restore_without_backup (h : String) :
    restore_backup h none = (h, "No backup found.") := rfl

/-- Claim C8: rendering the empty domain set omits the custom section
entirely but keeps both sentinels, the safe-search comment and every
fixed safe-search mapping in the hard-coded order. -/
theorem render_empty_set :
    render_block [] =
      ["# >>> SafeBrowsingGuard begin\n",
       "# SafeSearch mappings -> 216.239.38.120\n",
       "216.239.38.120\tgoogle.com\n",
       "216.239.38.120\twww.google.com\n",
       "216.239.38.120\twww.google.co.uk\n",
       "216.239.38.120\twww.google.ca\n",
       "216.239.38.120\tyoutube.com\n",
       "216.239.38.120\twww.youtube.com\n",
       "# <<< SafeBrowsingGuard end\n"] := by
  decide

/-- Claim C9: the concrete end-to-end scenario from the spec, with the
fixed mappings spelled out. -/
theorem apply_scenario :
    apply_changes ["bad.com"] "1.2.3.4 other.example\n" =
      "1.2.3.4 other.example\n# >>> SafeBrowsingGuard begin\n# SafeSearch mappings -> 216.239.38.120\n216.239.38.120\tgoogle.com\n216.239.38.120\twww.google.com\n216.239.38.120\twww.google.co.uk\n216.239.38.120\twww.google.ca\n216.239.38.120\tyoutube.com\n216.239.38.120\twww.youtube.com\n# Custom blocked domains -> 127.0.0.1\n127.0.0.1\tbad.com\n# <<< SafeBrowsingGuard end\n" := by
  decide

/-- Claim C10: the strip step drops a line whose trimmed form equals the
end sentinel even when the skip state is off, so a stray end-sentinel
line never survives stripping; concretely, a stray end sentinel between
foreign lines is removed. -/
theorem strip_drops_stray_end :
    (∀ (l : String) (ls : List String), pyStrip l = END_MARKER →
      strip_managed_block (l :: ls) = strip_managed_block ls) ∧
    (∀ (ls : List String) (l : String), l ∈ strip_managed_block ls →
      pyStrip l ≠ END_MARKER) ∧
    strip_managed_block
        ["keep me\n", "# <<< SafeBrowsingGuard end\n", "also\n"] =
      ["keep me\n", "also\n"] := by
  refine ⟨?_, ?_, by decide⟩
  · intro l ls h
    unfold strip_managed_block
    refine stripAux_cons_end false l ls ?_ h
    rw [h]
    decide
  · intro ls l hl
    exact (stripAux_markerFree ls false l hl).2

/-- Witness for C10: dropping a stray end sentinel at the head of a file
with the skip state off. -/
theorem strip_drops_stray_end_witness :
    strip_managed_block ["# <<< SafeBrowsingGuard end\n", "x\n"] =
      strip_managed_block ["x\n"] :=
  strip_drops_stray_end.1 "# <<< SafeBrowsingGuard end\n" ["x\n"] (by decide)
